import Mathlib

/-! Verification of the cgateweb C-Gate / MQTT bridge core.

This file formalises, as a shallow embedding in Lean, the parts of the
cgateweb bridge ("cgateweb-homeassistant") that the specification claims
talk about:

* `CBusCommand` — the MQTT topic/payload command parser (`cbusCommand.js`);
* `CBusEvent` — the C-Bus event line parser (`cbusEvent.js`);
* `EventPublisher.publishEvent` — the event → MQTT translation
  (`eventPublisher.js`);
* `CommandResponseProcessor._parseCommandResponseLine` — the command
  channel response line splitter (`commandResponseProcessor.js`);
* `ThrottledQueue` — the paced FIFO dispatch queue (`throttledQueue.js`),
  modelled as a timed state machine;
* `CgateConnectionPool._getHealthyConnection` — round-robin selection
  over the healthy set (`cgateConnectionPool.js`);
* `MqttCommandRouter._handleRamp` / `_handleRelativeLevel` — the
  INCREASE/DECREASE relative-dim flow (`mqttCommandRouter.js`), together
  with the Node `EventEmitter.once` delivery semantics it relies on.

JavaScript strings are modelled as `List Char` / `String`; JavaScript
numbers are modelled as `ℤ`, `ℕ` or `ℚ` (exact where the program only
manipulates values for which IEEE double arithmetic is exact, noted at
each definition).  Character classes (`\w`, `\d`, `\s`) are modelled over
ASCII, which is the alphabet the wire protocols use.
-/

/-- JavaScript `\s` restricted to ASCII (space, tab, LF, VT, FF, CR). -/
def isWsChar (c : Char) : Bool :=
  c = ' ' || c = '\t' || c = '\n' || c = '\x0b' || c = '\x0c' || c = '\r'

/-- JavaScript `\w` = `[A-Za-z0-9_]` (`Char.isAlphanum` is ASCII-only). -/
def isWordChar (c : Char) : Bool :=
  c.isAlphanum || c = '_'

/-- `String.prototype.trim()` on ASCII whitespace, over `List Char`. -/
def trimChars (l : List Char) : List Char :=
  ((l.dropWhile isWsChar).reverse.dropWhile isWsChar).reverse

/-- `parseInt(digits, 10)` on an all-digit string. -/
def natOfDigits (l : List Char) : ℕ :=
  l.foldl (fun acc c => acc * 10 + (c.toNat - 48)) 0

/-- Splits a list at the first occurrence of `sep`:
`splitAtFirst sep l = some (before, after)` when `sep` occurs, with
`before` hyphen-free.  This models `indexOf` + `substring` (and equally
`split(sep)[0]` / `split(sep).slice(1).join(sep)`, which reconstructs the
text after the first separator exactly). -/
def splitAtFirst (sep : Char) : List Char → Option (List Char × List Char)
  | [] => none
  | c :: cs =>
    if c = sep then some ([], cs)
    else match splitAtFirst sep cs with
      | some (b, a) => some (c :: b, a)
      | none => none

/-- Drops `p` from the front of `l` if `l` starts with `p` (literal regex
prefix matching). -/
def dropLit : List Char → List Char → Option (List Char)
  | [], rest => some rest
  | _ :: _, [] => none
  | p :: ps, c :: cs => if p = c then dropLit ps cs else none

/-- `Math.round` on exact rationals: JavaScript rounds half toward `+∞`,
i.e. `⌊x + 1/2⌋`. -/
def jsRound (q : ℚ) : ℤ :=
  ⌊q + 1 / 2⌋

/-! ## `CBusCommand` (`cbusCommand.js`)

The MQTT command topic is matched against
`COMMAND_TOPIC_REGEX = /^cbus\/write\/(\w*)\/(\w*)\/(\w*)\/(\w+)/`
(`constants.js`).  Note that the pattern is anchored at the start only:
there is no `$`, so a topic may continue with arbitrary text after the
command-type segment.  Because `\w` and `/` are disjoint, the greedy
captures are deterministic: each `(\w*)` is the maximal word run before
the next `/`, and `(\w+)` is a non-empty maximal word run. -/

/-- Captures of `COMMAND_TOPIC_REGEX` applied to a topic. -/
structure TopicCaptures where
  network : String
  application : String
  group : String
  commandType : String
deriving DecidableEq, Repr

/-- Matching of `COMMAND_TOPIC_REGEX` against a (trimmed) topic. -/
def matchCommandTopic (cs : List Char) : Option TopicCaptures :=
  match dropLit "cbus/write/".toList cs with
  | none => none
  | some r0 =>
    let s1 := r0.takeWhile isWordChar
    match r0.dropWhile isWordChar with
    | '/' :: r2 =>
      let s2 := r2.takeWhile isWordChar
      match r2.dropWhile isWordChar with
      | '/' :: r4 =>
        let s3 := r4.takeWhile isWordChar
        match r4.dropWhile isWordChar with
        | '/' :: r6 =>
          let s4 := r6.takeWhile isWordChar
          if s4.isEmpty then none
          else some ⟨⟨s1⟩, ⟨s2⟩, ⟨s3⟩, ⟨s4⟩⟩
        | _ => none
      | _ => none
    | _ => none

/-- The command types accepted by `CBusCommand._parse`
(`validCommandTypes`, `cbusCommand.js` line 82). -/
def validCommandTypes : List String :=
  ["getall", "gettree", "switch", "ramp", "setvalue"]

/-- `payload.toUpperCase()` (ASCII). -/
def upperString (s : String) : String :=
  ⟨s.toList.map Char.toUpper⟩

/-- Whether `_parsePayload` would leave `_isValid` untouched, i.e. the
payload conforms to the command type's grammar
(`_parseSwitchPayload` / `_parseRampPayload`, `cbusCommand.js`).
For `ramp`, a numeric payload is one whose first comma-separated part
parses under `parseFloat` to a number (not `NaN`). -/
def jsParseFloatSucceeds (s : String) : Bool :=
  -- `parseFloat` succeeds iff, after optional sign, the text starts with
  -- a digit, a dot followed by a digit, or the literal `Infinity`.
  let t := s.toList.dropWhile isWsChar
  let t1 := match t with
    | '+' :: r => r
    | '-' :: r => r
    | r => r
  match t1 with
  | [] => false
  | '.' :: d :: _ => d.isDigit
  | c :: _ => c.isDigit || (dropLit "Infinity".toList t1).isSome

/-- First comma-separated part of the payload, trimmed
(`this._payload.split(',')`, `parts[0].trim()`). -/
def firstCommaPart (s : String) : String :=
  match splitAtFirst ',' s.toList with
  | some (b, _) => ⟨trimChars b⟩
  | none => ⟨trimChars s.toList⟩

/-- Payload conformance per command type, as `_parsePayload` checks it. -/
def payloadConforms (cmdType : String) (payload : String) : Bool :=
  if cmdType = "switch" then
    upperString payload = "ON" || upperString payload = "OFF"
  else if cmdType = "ramp" then
    upperString payload = "ON" || upperString payload = "OFF" ||
    upperString payload = "INCREASE" || upperString payload = "DECREASE" ||
    jsParseFloatSucceeds (firstCommaPart payload)
  else
    true

/-- `new CBusCommand(topic, payload).isValid()`.

Faithful to `CBusCommand._parse` (`cbusCommand.js` lines 66–100): the
topic is trimmed, matched against the (end-unanchored) topic regex, and
the command type is checked against `validCommandTypes`.  `_parsePayload`
(line 91) can set `this._isValid = false` for a malformed switch/ramp
payload, but line 93 then unconditionally executes
`this._isValid = true`, overwriting it — so the payload has no effect on
the final validity (the helper `payloadConforms` above records what the
dead assignments test, and is deliberately *not* consulted here). -/
def cbusCommandIsValid (topic payload : String) : Bool :=
  let t := trimChars topic.toList
  if t.isEmpty then false
  else
    match matchCommandTopic t with
    | none => false
    | some caps =>
      let _ := payloadConforms caps.commandType payload
      validCommandTypes.contains caps.commandType

example : cbusCommandIsValid "cbus/write/254/56/4/switch" "ON" = true := by decide
example : cbusCommandIsValid "cbus/write/254/56/4/flip" "ON" = false := by decide
example : cbusCommandIsValid "not/a/topic" "ON" = false := by decide
example : payloadConforms "switch" "BANANA" = false := by decide
example : payloadConforms "ramp" "50,2s" = true := by decide
example : payloadConforms "ramp" "abc" = false := by decide

/-! ## Ramp payload numeric scaling (`CBusCommand._parseRampLevelAndTime`)

`cbusCommand.js` lines 146–170: the percentage is clamped to `[0,100]`
and converted with `Math.round((clampedLevel / 100) * 255)`.  The model
uses exact rationals; for every percentage either literally reachable
from an integer payload or quantified over below, IEEE double evaluation
of `(p / 100) * 255` rounds to the same integer as the exact value (all
exact half-way cases `p ∈ {10, 30, 50, 70, 90}` round up under both). -/

/-- The C-Gate level computed by `_parseRampLevelAndTime` from a numeric
percentage `p`: clamp to `[0,100]`, then `Math.round((p / 100) * 255)`. -/
def rampPayloadLevel (p : ℚ) : ℤ :=
  jsRound (max 0 (min 100 p) / 100 * 255)

/-! ## `CBusEvent` (`cbusEvent.js`)

Standard events are matched against
`EVENT_REGEX = /^(\w+)\s+(\w+)\s+(?:(?:\/\/\w+\/)?(\d+\/\d+\/\d+))(?:\s+(\d+))?/`
(anchored at the start only).  Status responses (raw line starting with
`300`) are parsed by `_parseStatusResponse` with the searches
`/level=(\d+)/` and `/\/\/\w+\/(\d+\/\d+\/\d+):/`. -/

/-- A parsed, valid C-Bus event (the fields `CBusEvent` exposes through
its getters when `isValid()` holds). -/
structure CEvent where
  deviceType : String
  action : String
  network : String
  application : String
  group : String
  level : Option ℕ
deriving DecidableEq, Repr

/-- `(\d+\/\d+\/\d+)`: three non-empty digit runs separated by `/`,
returning the captures and the remaining input. -/
def parseAddrTriple (l : List Char) :
    Option (String × String × String × List Char) :=
  let d1 := l.takeWhile Char.isDigit
  if d1.isEmpty then none
  else match l.dropWhile Char.isDigit with
    | '/' :: r2 =>
      let d2 := r2.takeWhile Char.isDigit
      if d2.isEmpty then none
      else match r2.dropWhile Char.isDigit with
        | '/' :: r4 =>
          let d3 := r4.takeWhile Char.isDigit
          if d3.isEmpty then none
          else some (⟨d1⟩, ⟨d2⟩, ⟨d3⟩, r4.dropWhile Char.isDigit)
        | _ => none
    | _ => none

/-- The address part of `EVENT_REGEX`:
`(?:(?:\/\/\w+\/)?(\d+\/\d+\/\d+))`.  The optional `//<word>/` prefix is
tried greedily first; on failure the engine backtracks and retries the
bare triple at the same position. -/
def parseEventAddress (l : List Char) :
    Option (String × String × String × List Char) :=
  match l with
  | '/' :: '/' :: r5 =>
    let w := r5.takeWhile isWordChar
    (if w.isEmpty then none
     else match r5.dropWhile isWordChar with
       | '/' :: r6 => parseAddrTriple r6
       | _ => none).orElse (fun _ => parseAddrTriple l)
  | _ => parseAddrTriple l

/-- `EVENT_REGEX` applied to a raw event line (start-anchored search). -/
def matchEventRegex (cs : List Char) : Option CEvent :=
  let w1 := cs.takeWhile isWordChar
  if w1.isEmpty then none
  else
    let r1 := cs.dropWhile isWordChar
    let sp1 := r1.takeWhile isWsChar
    if sp1.isEmpty then none
    else
      let r2 := r1.dropWhile isWsChar
      let w2 := r2.takeWhile isWordChar
      if w2.isEmpty then none
      else
        let r3 := r2.dropWhile isWordChar
        let sp2 := r3.takeWhile isWsChar
        if sp2.isEmpty then none
        else
          let r4 := r3.dropWhile isWsChar
          match parseEventAddress r4 with
          | none => none
          | some (n, a, g, r7) =>
            -- `(?:\s+(\d+))?`: optional whitespace-then-digits suffix.
            let lvl :=
              if (r7.takeWhile isWsChar).isEmpty then none
              else
                let rd := r7.dropWhile isWsChar
                let ds := rd.takeWhile Char.isDigit
                if ds.isEmpty then none else some (natOfDigits ds)
            some ⟨⟨w1⟩, ⟨w2⟩, n, a, g, lvl⟩

/-- The search `/level=(\d+)/`: first position where `level=` is followed
by at least one digit; captures the maximal digit run. -/
def findLevelCapture : List Char → Option ℕ
  | [] => none
  | c :: rest =>
    match dropLit "level=".toList (c :: rest) with
    | some r =>
      let ds := r.takeWhile Char.isDigit
      if ds.isEmpty then findLevelCapture rest else some (natOfDigits ds)
    | none => findLevelCapture rest

/-- One attempt of `/\/\/\w+\/(\d+\/\d+\/\d+):/` at the current
position. -/
def tryStatusAddrAt (l : List Char) : Option (String × String × String) :=
  match l with
  | '/' :: '/' :: r =>
    let w := r.takeWhile isWordChar
    if w.isEmpty then none
    else match r.dropWhile isWordChar with
      | '/' :: r2 =>
        match parseAddrTriple r2 with
        | some (n, a, g, ':' :: _) => some (n, a, g)
        | _ => none
      | _ => none
  | _ => none

/-- The search `/\/\/\w+\/(\d+\/\d+\/\d+):/` (leftmost match). -/
def findStatusAddr : List Char → Option (String × String × String)
  | [] => none
  | c :: rest =>
    match tryStatusAddrAt (c :: rest) with
    | some x => some x
    | none => findStatusAddr rest

/-- `CBusEvent._parseStatusResponse` (`cbusEvent.js` lines 102–133):
extract `level=<digits>` and the `//<project>/<n>/<a>/<g>:` address from
the raw line; valid iff the address is found; `deviceType` is fixed to
`lighting` and `action` derived from the level. -/
def parseStatusResponse (raw : List Char) : Option CEvent :=
  let lvl := findLevelCapture raw
  match findStatusAddr raw with
  | none => none
  | some (n, a, g) =>
    let action := match lvl with
      | some v => if 0 < v then "on" else "off"
      | none => "off"
    some ⟨"lighting", action, n, a, g, lvl⟩

/-- `new CBusEvent(line)`, returning `some` of the parsed record exactly
when `isValid()` holds.  The constructor trims the line, treats an empty
result as invalid, routes lines starting with `300` to
`_parseStatusResponse`, and matches everything else against
`EVENT_REGEX`; whenever the regex matches, the address capture has three
components, so regex success implies validity. -/
def cbusEventParse (line : String) : Option CEvent :=
  let raw := trimChars line.toList
  match raw with
  | [] => none
  | '3' :: '0' :: '0' :: _ => parseStatusResponse raw
  | _ => matchEventRegex raw

example : cbusEventParse "lighting on 254/56/4" =
    some ⟨"lighting", "on", "254", "56", "4", none⟩ := by decide
example : cbusEventParse "lighting ramp 254/56/4 128" =
    some ⟨"lighting", "ramp", "254", "56", "4", some 128⟩ := by decide
example : cbusEventParse "lighting on //HOME/254/56/4" =
    some ⟨"lighting", "on", "254", "56", "4", none⟩ := by decide
example : cbusEventParse "300 //HOME/254/56/4: level=128" =
    some ⟨"lighting", "on", "254", "56", "4", some 128⟩ := by decide
example : cbusEventParse "garbage" = none := by decide
example : cbusEventParse "lighting ramp 254/56/4 999" =
    some ⟨"lighting", "ramp", "254", "56", "4", some 999⟩ := by decide

/-! ## `EventPublisher.publishEvent` (`eventPublisher.js`)

For a valid event the publisher computes a percentage level and a state
string and enqueues one or two MQTT messages (lines 56–106).  The level
percentage uses `Math.round(event.getLevel() / 255 * 100)`; for
`L ∈ [0,255]` (indeed for every `ℕ` level the parser can produce up to
`2^53`) the exact value is never a half-integer, and double evaluation
rounds to the same integer as the exact rational. -/

/-- The level percentage `publishEvent` computes for an event. -/
def eventLevelPercent (e : CEvent) : ℤ :=
  match e.level with
  | some l => jsRound ((l : ℚ) / 255 * 100)
  | none => if e.action = "on" then 100 else 0

/-- An MQTT publication: topic and payload. -/
structure MqttMsg where
  topic : String
  payload : String
deriving DecidableEq, Repr

/-- `EventPublisher.publishEvent` on a valid event: the state message,
followed by the level message for non-PIR applications.
`pirAppId` models `settings.ha_discovery_pir_app_id`. -/
def publishEventMessages (pirAppId : Option String) (e : CEvent) :
    List MqttMsg :=
  let topicBase := "cbus/read/" ++ e.network ++ "/" ++ e.application ++ "/" ++ e.group
  let isPir := some e.application = pirAppId
  let levelPercent := eventLevelPercent e
  let state :=
    if isPir then (if e.action = "on" then "ON" else "OFF")
    else match e.level with
      | some _ => if 0 < levelPercent then "ON" else "OFF"
      | none => if e.action = "on" then "ON" else "OFF"
  ⟨topicBase ++ "/state", state⟩ ::
    (if isPir then [] else [⟨topicBase ++ "/level", toString levelPercent⟩])

/-- The payload the bridge publishes on `cbus/read/<n>/<a>/<g>/level`
for a valid event line (there is exactly one such message for a non-PIR
event; `none` when the line is invalid). -/
def publishedLevelOfLine (pirAppId : Option String) (line : String) :
    Option ℤ :=
  (cbusEventParse line).bind fun e =>
    if some e.application = pirAppId then none else some (eventLevelPercent e)

/-! ## `CommandResponseProcessor._parseCommandResponseLine`
(`commandResponseProcessor.js` lines 65–90)

The line is split into `responseCode` and `statusData`:
* if the line contains a hyphen that is not its last character
  (`hyphenIndex > -1 && line.length > hyphenIndex + 1`), split at the
  *first* hyphen — regardless of what precedes it — trimming both parts;
* otherwise split at the first space (`split(' ')` + `join(' ')`
  reconstructs the text after the first space exactly), trimming both;
* the code must then match `/^[1-6]\d{2}$/` (the separate
  `!responseCode` emptiness test is subsumed), else the line is skipped.
-/

/-- `/^[1-6]\d{2}$/.test code`. -/
def codeRegexOk (code : List Char) : Bool :=
  match code with
  | [c0, c1, c2] => ('1' ≤ c0 && c0 ≤ '6') && c1.isDigit && c2.isDigit
  | _ => false

/-- The first-space split both branches fall back to:
`line.split(' ')[0].trim()` and `line.split(' ').slice(1).join(' ').trim()`. -/
def spaceSplit (cs : List Char) : List Char × List Char :=
  match splitAtFirst ' ' cs with
  | some (b, a) => (trimChars b, trimChars a)
  | none => (trimChars cs, [])

/-- The final step shared by both split branches: test the code against
`/^[1-6]\d{2}$/` and return the pair, or skip the line. -/
def finishParse (parts : List Char × List Char) : Option (String × String) :=
  if codeRegexOk parts.1 then some (⟨parts.1⟩, ⟨parts.2⟩) else none

/-- `CommandResponseProcessor._parseCommandResponseLine`, returning
`some (responseCode, statusData)` or `none` when the line is skipped. -/
def parseCommandResponseLine (line : String) : Option (String × String) :=
  match splitAtFirst '-' line.toList with
  | some (b, a) =>
    if a.isEmpty then finishParse (spaceSplit line.toList)
    else finishParse (trimChars b, trimChars a)
  | none => finishParse (spaceSplit line.toList)

/-- The splitter as claim C7 describes it: split at the first hyphen
*only when* the line has the form `<digits>-<rest>` (a non-empty digit
run up to the first hyphen); otherwise split at the first space. -/
def claimParseCommandResponseLine (line : String) : Option (String × String) :=
  match splitAtFirst '-' line.toList with
  | some (b, a) =>
    if !b.isEmpty && b.all Char.isDigit then finishParse (trimChars b, trimChars a)
    else finishParse (spaceSplit line.toList)
  | none => finishParse (spaceSplit line.toList)

example : parseCommandResponseLine "300-//HOME/254/56/4: level=128" =
    some ("300", "//HOME/254/56/4: level=128") := by decide
example : parseCommandResponseLine "200 OK" = some ("200", "OK") := by decide
example : parseCommandResponseLine "hello there" = none := by decide
example : parseCommandResponseLine "300 a-b" = none := by decide
example : claimParseCommandResponseLine "300 a-b" = some ("300", "a-b") := by decide

/-! ## `ThrottledQueue` (`throttledQueue.js`)

State: the pending item list `_queue` and the pacing timer `_interval`
(`none` when idle, `some f` when the next `setInterval` callback is due
at absolute time `f`).  Operations:

* `add(item)` pushes the item; if the timer is idle it starts the
  interval (first callback `intervalMs` later) and runs `_process`
  immediately;
* `_process` (the interval callback, due at the timer's fire time)
  clears the timer if the queue is empty, else shifts and dispatches the
  head and the interval continues `intervalMs` later;
* `clear()` drops the pending items and stops the timer.

A dispatch record is `(time, item)`.  Time is an abstract `ℕ` clock. -/

/-- `ThrottledQueue` state. -/
structure QState where
  queue : List ℕ
  timer : Option ℕ
deriving DecidableEq, Repr

/-- The queue operations (`tick` is the `setInterval` callback running
`_process`). -/
inductive QOp where
  | add (item : ℕ)
  | tick
  | clearQ
deriving DecidableEq, Repr

/-- The initial (empty, idle) state. -/
def qInit : QState := ⟨[], none⟩

/-- One operation of `ThrottledQueue`, at absolute time `t`, with pacing
interval `Δ`.  Returns the new state and the dispatch, if any. -/
def qStep (Δ : ℕ) (s : QState) (t : ℕ) : QOp → QState × Option (ℕ × ℕ)
  | QOp.add x =>
    match s.timer with
    | some f => (⟨s.queue ++ [x], some f⟩, none)
    | none =>
      -- `setInterval` started (first callback at `t + Δ`), then
      -- `_process()` runs immediately and dispatches the head.
      match s.queue ++ [x] with
      | [] => (s, none)  -- unreachable: `l ++ [x]` is never `[]`
      | y :: rest => (⟨rest, some (t + Δ)⟩, some (t, y))
  | QOp.tick =>
    match s.queue with
    | [] => (⟨[], none⟩, none)       -- drain: `clearInterval`
    | y :: rest => (⟨rest, some (t + Δ)⟩, some (t, y))
  | QOp.clearQ => (⟨[], none⟩, none)

/-- Runs a timed operation sequence, collecting the dispatches. -/
def qRun (Δ : ℕ) : QState → List (ℕ × QOp) → List (ℕ × ℕ)
  | _, [] => []
  | s, (t, op) :: rest =>
    let r := qStep Δ s t op
    r.2.toList ++ qRun Δ r.1 rest

/-- `t ≤ f` whenever the timer is pending at `f`: no event may be
processed after a due `setInterval` callback has been skipped. -/
def dueOk (timer : Option ℕ) (t : ℕ) : Prop :=
  match timer with
  | none => True
  | some f => t ≤ f

/-- A `tick` happens exactly at the timer's fire time. -/
def tickOk (timer : Option ℕ) (t : ℕ) : QOp → Prop
  | QOp.tick => timer = some t
  | _ => True

/-- Validity of a timed operation sequence from state `s` at time `now`:
times are non-decreasing, no event overtakes a due timer callback, and
ticks happen exactly when the timer fires. -/
def qValidFrom (Δ : ℕ) : QState → ℕ → List (ℕ × QOp) → Prop
  | _, _, [] => True
  | s, now, (t, op) :: rest =>
    now ≤ t ∧ dueOk s.timer t ∧ tickOk s.timer t op ∧
      qValidFrom Δ (qStep Δ s t op).1 t rest

/-- The items added by a timed operation sequence, in order. -/
def addedItems : List (ℕ × QOp) → List ℕ
  | [] => []
  | (_, QOp.add x) :: rest => x :: addedItems rest
  | _ :: rest => addedItems rest

/-- No `clear()` in the sequence. -/
def noClear (ops : List (ℕ × QOp)) : Prop :=
  ∀ e ∈ ops, e.2 ≠ QOp.clearQ

/-- The C10 invariant: a non-empty pending list implies an active
pacing timer. -/
def qInv (s : QState) : Prop :=
  s.queue ≠ [] → s.timer ≠ none

/-! ## `CgateConnectionPool._getHealthyConnection`
(`cgateConnectionPool.js` lines 317–330)

With a fixed healthy set, `Array.from(this.healthyConnections)` yields
the same insertion-ordered array on every call; selection reads
`healthyArray[connectionIndex % length]` and stores
`(connectionIndex + 1) % length`. -/

/-- The connections selected by `n` consecutive `execute` calls, for a
fixed healthy array and a starting round-robin index. -/
def selections (healthy : List ℕ) (i : ℕ) : ℕ → List ℕ
  | 0 => []
  | n + 1 =>
    if healthy.length = 0 then []
    else
      healthy.getD (i % healthy.length) 0 ::
        selections healthy ((i + 1) % healthy.length) n

example : selections [10, 20, 30] 0 6 = [10, 20, 30, 10, 20, 30] := by decide
example : selections [10, 20, 30] 2 6 = [30, 10, 20, 30, 10, 20] := by decide

/-! ## `MqttCommandRouter` relative-level flow (`mqttCommandRouter.js`)

`_handleRamp` (lines 304–330) dispatches on the upper-cased payload; for
`INCREASE`/`DECREASE` it calls `_handleRelativeLevel` (lines 363–378),
which registers a **`once`** listener on the internal `level` event and
enqueues a `GET … level` query.  Node's `EventEmitter.once` removes the
listener when the *first* `level` event fires, whatever its arguments;
the handler then only acts if the delivered address matches.  The
listener list is kept in registration order, and an `emit` invokes (and,
for `once` wrappers, removes) every currently registered listener. -/

/-- A registered one-shot relative-level listener
(`_handleRelativeLevel`'s closure: path, address, `step`, `limit`). -/
structure RelListener where
  path : String
  address : String
  step : ℤ
  limit : ℤ
deriving DecidableEq, Repr

/-- The `RAMP` command the listener enqueues on a matching delivery:
`Math.max(0, Math.min(limit, currentLevel + step))`. -/
def rampCommandOf (r : RelListener) (currentLevel : ℤ) : String :=
  "RAMP " ++ r.path ++ " " ++ toString (max 0 (min r.limit (currentLevel + r.step))) ++ "\n"

/-- `_handleRelativeLevel cbusPath levelAddress step limit`: appends the
`once` listener and enqueues the level query.  Returns the enqueued
C-Gate commands and the new listener list. -/
def handleRelativeLevel (path addr : String) (step limit : ℤ)
    (ls : List RelListener) : List String × List RelListener :=
  (["GET " ++ path ++ " level\n"], ls ++ [⟨path, addr, step, limit⟩])

/-- `internalEventEmitter.emit('level', addr, currentLevel)`: every
registered `once` listener is removed and invoked; a listener enqueues
its `RAMP` command iff the delivered address matches its own.  Returns
the enqueued commands (in listener order) and the new listener list. -/
def emitLevel (ls : List RelListener) (addr : String) (currentLevel : ℤ) :
    List String × List RelListener :=
  (ls.filterMap fun r =>
    if r.address = addr then some (rampCommandOf r currentLevel) else none, [])

/-- `_handleRamp` for a parsed ramp command with captures `n/a/g` under
project `proj`, restricted to the relative payloads and ON/OFF (the
absolute-level branch goes through `rampPayloadLevel`).  Returns the
enqueued commands and the updated listener list; `none` models the
early-return when the group capture is empty. -/
def handleRamp (proj n a g payload : String) (ls : List RelListener) :
    Option (List String × List RelListener) :=
  if g = "" then none
  else
    let path := "//" ++ proj ++ "/" ++ n ++ "/" ++ a ++ "/" ++ g
    let addr := n ++ "/" ++ a ++ "/" ++ g
    let up := upperString payload
    if up = "INCREASE" then some (handleRelativeLevel path addr 26 255 ls)
    else if up = "DECREASE" then some (handleRelativeLevel path addr (-26) 255 ls)
    else if up = "ON" then some (["ON " ++ path ++ "\n"], ls)
    else if up = "OFF" then some (["OFF " ++ path ++ "\n"], ls)
    else none  -- absolute-level branch, not needed for the claims below

/-! ## Declarative split forms (used to characterise the response-line
splitter independently of its implementation) -/

/-- The line decomposes at its first hyphen with a non-empty remainder;
code and data are the trimmed parts. -/
def hyphenSplitForm (cs code data : List Char) : Prop :=
  ∃ b a, cs = b ++ '-' :: a ∧ '-' ∉ b ∧ a ≠ [] ∧
    code = trimChars b ∧ data = trimChars a

/-- Every hyphen of the line (if any) is its last character. -/
def noEffectiveHyphen (cs : List Char) : Prop :=
  ∀ b a, cs = b ++ '-' :: a → a = []

/-- The first-space split: either the line decomposes at its first
space, or it has no space and the code is the whole trimmed line with
empty data. -/
def spaceSplitForm (cs code data : List Char) : Prop :=
  (∃ b a, cs = b ++ ' ' :: a ∧ ' ' ∉ b ∧
    code = trimChars b ∧ data = trimChars a) ∨
  (' ' ∉ cs ∧ code = trimChars cs ∧ data = [])

/-! ## Claim theorems -/

/-- Claim C1.  The claim states that `isValid()` holds iff the topic
matches the *end-anchored* regex with a known command kind *and* the
payload satisfies the kind's grammar — in particular that a `switch`
payload other than ON/OFF is invalid.  The code contradicts this:
`_parse` unconditionally sets `_isValid = true` after `_parsePayload`,
so a `switch` command with payload `BANANA` is valid even though the
payload fails the switch grammar; and the topic regex has no `$`, so a
topic with a trailing segment is accepted as well. -/
theorem c1_cbusCommand_validity_bug :
    cbusCommandIsValid "cbus/write/254/56/4/switch" "BANANA" = true ∧
    payloadConforms "switch" "BANANA" = false ∧
    cbusCommandIsValid "cbus/write/254/56/4/switch/extra" "ON" = true := by
  decide

/-- Claim C5.  The claim states that a relative-level registration for
address `A` survives level deliveries for other addresses.  The code
registers the handler with `EventEmitter.once`, which removes it on the
*first* `level` event regardless of address: after an `INCREASE`
registration for `254/56/4`, a delivery for `254/56/5` emits no `RAMP`
but consumes the listener, and the later delivery for `254/56/4` then
emits nothing. -/
theorem c5_once_consumed_by_mismatched_delivery :
    handleRamp "HOME" "254" "56" "4" "INCREASE" [] =
      some (["GET //HOME/254/56/4 level\n"],
            [⟨"//HOME/254/56/4", "254/56/4", 26, 255⟩]) ∧
    emitLevel [⟨"//HOME/254/56/4", "254/56/4", 26, 255⟩] "254/56/5" 200 =
      ([], []) ∧
    emitLevel [] "254/56/4" 128 = ([], []) := by
  decide

/-- Claim C6.  The claim states that a second INCREASE/DECREASE
registration for an address with an active operation is rejected and
installs no additional listener.  The live registration path
(`MqttCommandRouter._handleRelativeLevel`) has no such guard: a second
`INCREASE` for `254/56/4` yields two armed listeners, and the next
matching level delivery enqueues the `RAMP` command twice.  (The guarded
`DeviceStateManager.setupRelativeLevelOperation` is never called by the
router.) -/
theorem c6_duplicate_registration_not_rejected :
    (handleRamp "HOME" "254" "56" "4" "INCREASE"
        [⟨"//HOME/254/56/4", "254/56/4", 26, 255⟩]).map (fun r => r.2.length) =
      some 2 ∧
    emitLevel [⟨"//HOME/254/56/4", "254/56/4", 26, 255⟩,
               ⟨"//HOME/254/56/4", "254/56/4", 26, 255⟩] "254/56/4" 128 =
      (["RAMP //HOME/254/56/4 154\n", "RAMP //HOME/254/56/4 154\n"], []) := by
  decide

/-- String concatenation is associative (used to normalise command
strings built from path fragments). -/
theorem string_append_assoc (a b c : String) : a ++ b ++ c = a ++ (b ++ c) := by
  cases a with | mk la => cases b with | mk lb => cases c with | mk lc =>
  show String.mk (la ++ lb ++ lc) = String.mk (la ++ (lb ++ lc))
  rw [List.append_assoc]

/-- `toUpperCase` fixes the relative payload literals. -/
theorem upper_INCREASE : upperString "INCREASE" = "INCREASE" := by decide

/-- `toUpperCase` fixes the relative payload literals. -/
theorem upper_DECREASE : upperString "DECREASE" = "DECREASE" := by decide

/-- Claim C3.  Level scaling round-trip: on exact arithmetic the ramp
payload conversion yields `round(p·255/100)` for every percentage
`p ∈ [0,100]`, and the event publisher computes `round(L·100/255)` for
every level `L ∈ [0,255]` (`round` being `Math.round`, half toward
`+∞`). -/
theorem c3_level_scaling_roundtrip :
    (∀ p : ℚ, 0 ≤ p → p ≤ 100 →
      rampPayloadLevel p = jsRound (p * 255 / 100)) ∧
    (∀ (e : CEvent) (l : ℕ), e.level = some l → l ≤ 255 →
      eventLevelPercent e = jsRound ((l : ℚ) * 100 / 255)) := by
  constructor
  · intro p h0 h100
    unfold rampPayloadLevel
    rw [min_eq_right h100, max_eq_right h0]
    ring_nf
  · intro e l he _
    unfold eventLevelPercent
    rw [he]
    ring_nf

/-- Witness for C3 at `p = 50` and `L = 128`. -/
theorem c3_witness :
    rampPayloadLevel 50 = jsRound (50 * 255 / 100) ∧
    eventLevelPercent ⟨"lighting", "ramp", "254", "56", "4", some 128⟩ =
      jsRound ((128 : ℚ) * 100 / 255) :=
  ⟨c3_level_scaling_roundtrip.1 50 (by norm_num) (by norm_num),
   c3_level_scaling_roundtrip.2 ⟨"lighting", "ramp", "254", "56", "4", some 128⟩
     128 rfl (by norm_num)⟩

/-- Claim C4.  Routing a ramp command with payload INCREASE (resp.
DECREASE) for `n/a/g` enqueues the level query and registers the
one-shot listener; the following level delivery for that address
enqueues exactly `RAMP //<project>/n/a/g <new>\n` with
`new = clamp(current ± 26, 0, 255)` — e.g. `current = 128` with
INCREASE yields level `154`. -/
theorem c4_relative_ramp_command (proj n a g : String) (hg : g ≠ "")
    (current : ℤ) :
    handleRamp proj n a g "INCREASE" [] =
      some (["GET " ++ ("//" ++ proj ++ "/" ++ n ++ "/" ++ a ++ "/" ++ g) ++ " level\n"],
        [⟨"//" ++ proj ++ "/" ++ n ++ "/" ++ a ++ "/" ++ g,
          n ++ "/" ++ a ++ "/" ++ g, 26, 255⟩]) ∧
    emitLevel [⟨"//" ++ proj ++ "/" ++ n ++ "/" ++ a ++ "/" ++ g,
        n ++ "/" ++ a ++ "/" ++ g, 26, 255⟩] (n ++ "/" ++ a ++ "/" ++ g) current =
      (["RAMP " ++ ("//" ++ proj ++ "/" ++ n ++ "/" ++ a ++ "/" ++ g) ++ " " ++
          toString (max 0 (min 255 (current + 26))) ++ "\n"], []) ∧
    handleRamp proj n a g "DECREASE" [] =
      some (["GET " ++ ("//" ++ proj ++ "/" ++ n ++ "/" ++ a ++ "/" ++ g) ++ " level\n"],
        [⟨"//" ++ proj ++ "/" ++ n ++ "/" ++ a ++ "/" ++ g,
          n ++ "/" ++ a ++ "/" ++ g, -26, 255⟩]) ∧
    emitLevel [⟨"//" ++ proj ++ "/" ++ n ++ "/" ++ a ++ "/" ++ g,
        n ++ "/" ++ a ++ "/" ++ g, -26, 255⟩] (n ++ "/" ++ a ++ "/" ++ g) current =
      (["RAMP " ++ ("//" ++ proj ++ "/" ++ n ++ "/" ++ a ++ "/" ++ g) ++ " " ++
          toString (max 0 (min 255 (current - 26))) ++ "\n"], []) ∧
    rampCommandOf ⟨"//HOME/254/56/4", "254/56/4", 26, 255⟩ 128 =
      "RAMP //HOME/254/56/4 154\n" := by
  refine ⟨?_, ?_, ?_, ?_, by decide⟩
  · simp [handleRamp, hg, upper_INCREASE, handleRelativeLevel]
  · simp [emitLevel, rampCommandOf]
  · simp [handleRamp, hg, upper_DECREASE, handleRelativeLevel]
  · simp [emitLevel, rampCommandOf, sub_eq_add_neg]

/-- Witness for C4 at `HOME`, `254/56/4`, `current = 128`. -/
theorem c4_witness :
    emitLevel [⟨"//HOME/254/56/4", "254/56/4", 26, 255⟩] "254/56/4" 128 =
      (["RAMP " ++ ("//" ++ "HOME" ++ "/" ++ "254" ++ "/" ++ "56" ++ "/" ++ "4") ++ " " ++
          toString (max 0 (min 255 ((128 : ℤ) + 26))) ++ "\n"], []) :=
  (c4_relative_ramp_command "HOME" "254" "56" "4" (by decide) 128).2.1

/-- `Math.round` maps `[0,100]` into `{0,…,100}`. -/
theorem jsRound_mem_of_mem (x : ℚ) (h0 : 0 ≤ x) (h100 : x ≤ 100) :
    0 ≤ jsRound x ∧ jsRound x ≤ 100 := by
  unfold jsRound
  constructor
  · exact Int.le_floor.mpr (by push_cast; linarith)
  · have h : ⌊x + 1 / 2⌋ < 101 := Int.floor_lt.mpr (by push_cast; linarith)
    omega

/-- Claim C8, counterexample.  The claim asserts that *every* line the
event parser accepts leads to a `…/level` payload in `[0,100]`; but the
level capture `(\d+)` of `EVENT_REGEX` is unbounded, so the line
`lighting ramp 254/56/4 999` is accepted as valid and the published
percentage is `Math.round(999/255·100) = 392 ∉ [0,100]`. -/
theorem c8_counterexample :
    cbusEventParse "lighting ramp 254/56/4 999" =
      some ⟨"lighting", "ramp", "254", "56", "4", some 999⟩ ∧
    publishedLevelOfLine none "lighting ramp 254/56/4 999" = some 392 ∧
    ¬ ((392 : ℤ) ≤ 100) := by
  have hp : cbusEventParse "lighting ramp 254/56/4 999" =
      some ⟨"lighting", "ramp", "254", "56", "4", some 999⟩ := by decide
  refine ⟨hp, ?_, by decide⟩
  unfold publishedLevelOfLine
  rw [hp]
  norm_num [eventLevelPercent, jsRound]
  exact fun h => absurd h (Option.some_ne_none _)

/-- Claim C8, amended.  For every event line the parser accepts whose
level capture (when present) is at most 255 — the range C-Gate actually
emits — the payload published on `cbus/read/<n>/<a>/<g>/level` is an
integer in `[0,100]`. -/
theorem c8_published_level_bounded (pirAppId : Option String) (line : String)
    (e : CEvent) (hparse : cbusEventParse line = some e)
    (hlvl : ∀ l, e.level = some l → l ≤ 255) (v : ℤ)
    (hv : publishedLevelOfLine pirAppId line = some v) :
    0 ≤ v ∧ v ≤ 100 := by
  unfold publishedLevelOfLine at hv
  rw [hparse] at hv
  rw [Option.some_bind] at hv
  by_cases hpir : some e.application = pirAppId
  · simp [hpir] at hv
  · simp only [hpir, if_false] at hv
    have hv' : v = eventLevelPercent e := by
      cases hv; rfl
    subst hv'
    unfold eventLevelPercent
    cases he : e.level with
    | some l =>
      have hl : l ≤ 255 := hlvl l he
      have hlq : (l : ℚ) ≤ 255 := by exact_mod_cast hl
      refine jsRound_mem_of_mem _ (by positivity) ?_
      rw [div_mul_eq_mul_div, div_le_iff₀ (by norm_num : (0 : ℚ) < 255)]
      linarith
    | none =>
      by_cases ha : e.action = "on" <;> simp [ha]

/-- Witness for C8 (amended) at the line `lighting ramp 254/56/4 128`,
whose published level payload is `50`. -/
theorem c8_witness : 0 ≤ (50 : ℤ) ∧ (50 : ℤ) ≤ 100 :=
  c8_published_level_bounded none "lighting ramp 254/56/4 128"
    ⟨"lighting", "ramp", "254", "56", "4", some 128⟩ (by decide)
    (fun l h => by injection h with h'; omega) 50 (by
      have hp : cbusEventParse "lighting ramp 254/56/4 128" =
          some ⟨"lighting", "ramp", "254", "56", "4", some 128⟩ := by decide
      unfold publishedLevelOfLine
      rw [hp]
      norm_num [eventLevelPercent, jsRound]
      exact fun h => absurd h (Option.some_ne_none _))

/-- `splitAtFirst` returns `none` exactly when the separator is absent. -/
theorem splitAtFirst_eq_none (sep : Char) (cs : List Char) :
    splitAtFirst sep cs = none ↔ sep ∉ cs := by
  induction cs with
  | nil => simp [splitAtFirst]
  | cons c cs ih =>
    simp only [splitAtFirst, List.mem_cons]
    by_cases hc : c = sep
    · simp [hc]
    · rw [if_neg hc]
      cases hsplit : splitAtFirst sep cs with
      | none =>
        have hsc : ¬sep = c := fun h => hc h.symm
        simp [hsplit, ih.mp hsplit, hsc]
      | some pair =>
        obtain ⟨b, a⟩ := pair
        have hmem : sep ∈ cs := by
          by_contra hmem
          rw [← ih] at hmem
          rw [hmem] at hsplit
          cases hsplit
        simp [hsplit, hmem]

/-- Soundness of `splitAtFirst`: the result decomposes the input at a
separator occurrence with a separator-free head. -/
theorem splitAtFirst_sound (sep : Char) :
    ∀ (cs b a : List Char), splitAtFirst sep cs = some (b, a) →
      cs = b ++ sep :: a ∧ sep ∉ b := by
  intro cs
  induction cs with
  | nil => intro b a h; cases h
  | cons c cs ih =>
    intro b a h
    simp only [splitAtFirst] at h
    by_cases hc : c = sep
    · rw [if_pos hc] at h
      simp only [Option.some.injEq, Prod.mk.injEq] at h
      obtain ⟨hb, ha⟩ := h
      subst hb; subst ha; subst hc
      exact ⟨rfl, List.not_mem_nil _⟩
    · rw [if_neg hc] at h
      cases hsplit : splitAtFirst sep cs with
      | none => rw [hsplit] at h; cases h
      | some pair =>
        obtain ⟨bt, at'⟩ := pair
        rw [hsplit] at h
        simp only [Option.some.injEq, Prod.mk.injEq] at h
        obtain ⟨hb, ha⟩ := h
        subst hb; subst ha
        obtain ⟨heq, hmem⟩ := ih bt at' hsplit
        constructor
        · rw [List.cons_append, ← heq]
        · intro hin
          rcases List.mem_cons.mp hin with h1 | h2
          · exact hc h1.symm
          · exact hmem h2

/-- Completeness of `splitAtFirst` on a decomposition whose head is
separator-free. -/
theorem splitAtFirst_complete (sep : Char) :
    ∀ (b a : List Char), sep ∉ b →
      splitAtFirst sep (b ++ sep :: a) = some (b, a) := by
  intro b
  induction b with
  | nil => intro a _; simp [splitAtFirst]
  | cons x xs ih =>
    intro a hmem
    have hx : ¬(x = sep) := fun h => hmem (by rw [h]; exact List.mem_cons_self _ _)
    simp only [List.cons_append, splitAtFirst, List.append_eq]
    rw [if_neg hx, ih a (fun h => hmem (List.mem_cons_of_mem _ h))]

/-- Among all decompositions of a list at a separator, the one whose
head is separator-free (the *first* occurrence) has the longest tail. -/
theorem firstSplit_minimal (sep : Char) :
    ∀ (b₀ a₀ b a : List Char), sep ∉ b₀ →
      b₀ ++ sep :: a₀ = b ++ sep :: a → a.length ≤ a₀.length := by
  intro b₀
  induction b₀ with
  | nil =>
    intro a₀ b a _ heq
    cases b with
    | nil =>
      simp only [List.nil_append, List.cons.injEq] at heq
      rw [heq.2]
    | cons y ys =>
      simp only [List.nil_append, List.cons_append, List.cons.injEq] at heq
      rw [heq.2]
      simp only [List.length_append, List.length_cons]
      omega
  | cons x xs ih =>
    intro a₀ b a hmem heq
    cases b with
    | nil =>
      simp only [List.cons_append, List.nil_append, List.cons.injEq] at heq
      exact absurd heq.1 (fun h => hmem (by rw [h]; exact List.mem_cons_self _ _))
    | cons y ys =>
      simp only [List.cons_append, List.cons.injEq] at heq
      exact ih a₀ ys a (fun h => hmem (List.mem_cons_of_mem _ h)) heq.2

/-- A string equals the packing of its character list. -/
theorem string_eq_of_toList {s : String} {l : List Char} (h : s.toList = l) :
    s = ⟨l⟩ := by
  cases s with
  | mk d => cases h; rfl

/-- The space-split branch, characterised declaratively. -/
theorem spaceBranch_iff (cs : List Char) (code data : String) :
    finishParse (spaceSplit cs) = some (code, data) ↔
      codeRegexOk code.toList = true ∧
        spaceSplitForm cs code.toList data.toList := by
  cases hsp : splitAtFirst ' ' cs with
  | some pair =>
    obtain ⟨b, a⟩ := pair
    obtain ⟨heq, hnb⟩ := splitAtFirst_sound ' ' cs b a hsp
    have hss : spaceSplit cs = (trimChars b, trimChars a) := by
      unfold spaceSplit; rw [hsp]
    rw [hss]
    constructor
    · intro h
      unfold finishParse at h
      by_cases hok : codeRegexOk (trimChars b) = true
      · rw [if_pos hok] at h
        simp only [Option.some.injEq, Prod.mk.injEq] at h
        obtain ⟨hc, hd⟩ := h
        subst hc; subst hd
        exact ⟨hok, Or.inl ⟨b, a, heq, hnb, rfl, rfl⟩⟩
      · rw [if_neg hok] at h; cases h
    · rintro ⟨hok, hform⟩
      rcases hform with ⟨bt, at', heq', hnb', hcode, hdata⟩ | ⟨hnos, _, _⟩
      · have hcomp := splitAtFirst_complete ' ' bt at' hnb'
        rw [← heq', hsp] at hcomp
        simp only [Option.some.injEq, Prod.mk.injEq] at hcomp
        obtain ⟨hb, ha⟩ := hcomp
        subst hb; subst ha
        have hc2 : code = ⟨trimChars b⟩ := string_eq_of_toList hcode
        have hd2 : data = ⟨trimChars a⟩ := string_eq_of_toList hdata
        subst hc2; subst hd2
        unfold finishParse
        rw [if_pos (show codeRegexOk (trimChars b, trimChars a).1 = true from hok)]
      · exact absurd
          (by rw [heq]; exact List.mem_append_right _ (List.mem_cons_self _ _)) hnos
  | none =>
    have hnos : ' ' ∉ cs := (splitAtFirst_eq_none ' ' cs).mp hsp
    have hss : spaceSplit cs = (trimChars cs, []) := by
      unfold spaceSplit; rw [hsp]
    rw [hss]
    constructor
    · intro h
      unfold finishParse at h
      by_cases hok : codeRegexOk (trimChars cs) = true
      · rw [if_pos hok] at h
        simp only [Option.some.injEq, Prod.mk.injEq] at h
        obtain ⟨hc, hd⟩ := h
        subst hc; subst hd
        exact ⟨hok, Or.inr ⟨hnos, rfl, rfl⟩⟩
      · rw [if_neg hok] at h; cases h
    · rintro ⟨hok, hform⟩
      rcases hform with ⟨bt, at', heq', _, _, _⟩ | ⟨_, hcode, hdata⟩
      · exact absurd
          (by rw [heq']; exact List.mem_append_right _ (List.mem_cons_self _ _)) hnos
      · have hc2 : code = ⟨trimChars cs⟩ := string_eq_of_toList hcode
        have hd2 : data = ⟨[]⟩ := string_eq_of_toList hdata
        subst hc2; subst hd2
        unfold finishParse
        rw [if_pos (show codeRegexOk (trimChars cs, ([] : List Char)).1 = true from hok)]

/-- Claim C7, counterexample.  The claim says the split happens at the
first hyphen *only* for lines of the form `<digits>-<rest>`, otherwise
at the first space.  On `300 a-b` the claim's algorithm yields code
`300` (dispatched), but the code splits at the hyphen whenever one is
present, producing code `300 a`, which fails `/^[1-6]\d{2}$/`, so the
line is skipped. -/
theorem c7_counterexample :
    parseCommandResponseLine "300 a-b" = none ∧
    claimParseCommandResponseLine "300 a-b" = some ("300", "a-b") ∧
    parseCommandResponseLine "300 a-b" ≠
      claimParseCommandResponseLine "300 a-b" := by
  decide

/-- Claim C7, amended.  `_parseCommandResponseLine` accepts a line with
code and data exactly when: the code matches `/^[1-6]\d{2}$/`, and
either the line splits at its first hyphen — *whenever a hyphen with a
non-empty remainder exists, regardless of what precedes it* — or no
such hyphen exists and the line splits at its first space (the whole
trimmed line with empty data when it has no space). -/
theorem c7_amended_split_characterisation (line code data : String) :
    parseCommandResponseLine line = some (code, data) ↔
      codeRegexOk code.toList = true ∧
        (hyphenSplitForm line.toList code.toList data.toList ∨
          (noEffectiveHyphen line.toList ∧
            spaceSplitForm line.toList code.toList data.toList)) := by
  cases hh : splitAtFirst '-' line.toList with
  | none =>
    have hnh : '-' ∉ line.toList := (splitAtFirst_eq_none _ _).mp hh
    have hbranch : parseCommandResponseLine line =
        finishParse (spaceSplit line.toList) := by
      unfold parseCommandResponseLine; rw [hh]
    rw [hbranch, spaceBranch_iff]
    constructor
    · rintro ⟨hok, hsf⟩
      refine ⟨hok, Or.inr ⟨?_, hsf⟩⟩
      intro b a habs
      exact (hnh (by
        rw [habs]; exact List.mem_append_right _ (List.mem_cons_self _ _))).elim
    · rintro ⟨hok, hform⟩
      rcases hform with ⟨b, a, habs, _, _, _, _⟩ | ⟨_, hsf⟩
      · exact (hnh (by
          rw [habs]; exact List.mem_append_right _ (List.mem_cons_self _ _))).elim
      · exact ⟨hok, hsf⟩
  | some pair =>
    obtain ⟨b0, a0⟩ := pair
    obtain ⟨heq0, hnb0⟩ := splitAtFirst_sound '-' line.toList b0 a0 hh
    cases a0 with
    | nil =>
      have hbranch : parseCommandResponseLine line =
          finishParse (spaceSplit line.toList) := by
        unfold parseCommandResponseLine; rw [hh]; rfl
      rw [hbranch, spaceBranch_iff]
      have hne : noEffectiveHyphen line.toList := by
        intro b a habs
        have hlen := firstSplit_minimal '-' b0 [] b a hnb0 (heq0.symm.trans habs)
        exact List.length_eq_zero.mp (Nat.le_zero.mp hlen)
      have hnohsf :
          ¬ hyphenSplitForm line.toList code.toList data.toList := by
        rintro ⟨b, a, habs, _, hane, _, _⟩
        exact hane (hne b a habs)
      constructor
      · rintro ⟨hok, hsf⟩; exact ⟨hok, Or.inr ⟨hne, hsf⟩⟩
      · rintro ⟨hok, hform⟩
        rcases hform with hhs | ⟨_, hsf⟩
        · exact (hnohsf hhs).elim
        · exact ⟨hok, hsf⟩
    | cons x xs =>
      have hbranch : parseCommandResponseLine line =
          finishParse (trimChars b0, trimChars (x :: xs)) := by
        unfold parseCommandResponseLine; rw [hh]; rfl
      rw [hbranch]
      have hnoeff : ¬ noEffectiveHyphen line.toList := fun hne =>
        List.cons_ne_nil x xs (hne b0 (x :: xs) heq0)
      constructor
      · intro h
        unfold finishParse at h
        by_cases hok : codeRegexOk (trimChars b0) = true
        · rw [if_pos hok] at h
          simp only [Option.some.injEq, Prod.mk.injEq] at h
          obtain ⟨hc, hd⟩ := h
          subst hc; subst hd
          exact ⟨hok,
            Or.inl ⟨b0, x :: xs, heq0, hnb0, List.cons_ne_nil x xs, rfl, rfl⟩⟩
        · rw [if_neg hok] at h; cases h
      · rintro ⟨hok, hform⟩
        rcases hform with ⟨b, a, habs, hnb, hane, hcode, hdata⟩ | ⟨hne, _⟩
        · have hcomp := splitAtFirst_complete '-' b a hnb
          rw [← habs, hh] at hcomp
          simp only [Option.some.injEq, Prod.mk.injEq] at hcomp
          obtain ⟨hb, ha⟩ := hcomp
          subst hb; subst ha
          have hc2 : code = ⟨trimChars b0⟩ := string_eq_of_toList hcode
          have hd2 : data = ⟨trimChars (x :: xs)⟩ := string_eq_of_toList hdata
          subst hc2; subst hd2
          unfold finishParse
          rw [if_pos
            (show codeRegexOk (trimChars b0, trimChars (x :: xs)).1 = true from hok)]
        · exact (hnoeff hne).elim

/-- Closed form of `selections`: the `j`-th selection reads slot
`(i + j) % length`. -/
theorem selections_eq_map (healthy : List ℕ) (hne : healthy.length ≠ 0) :
    ∀ (n i : ℕ), selections healthy i n =
      (List.range n).map
        (fun j => healthy.getD ((i + j) % healthy.length) 0) := by
  intro n
  induction n with
  | zero => intro i; simp [selections]
  | succ n ih =>
    intro i
    rw [selections, if_neg hne, List.range_succ_eq_map]
    simp only [List.map_cons, List.map_map]
    congr 1
    rw [ih ((i + 1) % healthy.length)]
    congr 1
    funext j
    simp only [Function.comp]
    rw [Nat.mod_add_mod]
    have hsh : i + 1 + j = i + j.succ := by omega
    rw [hsh]

/-- One full round of `length` selections visits the healthy array as a
rotation. -/
theorem selections_cycle (healthy : List ℕ) (hne : healthy.length ≠ 0)
    (i : ℕ) :
    selections healthy i healthy.length =
      healthy.rotate (i % healthy.length) := by
  rw [selections_eq_map healthy hne]
  apply List.ext_getElem
  · rw [List.length_map, List.length_range, List.length_rotate]
  · intro j h1 h2
    rw [List.getElem_map, List.getElem_range, List.getElem_rotate]
    have hidx : (i + j) % healthy.length =
        (j + i % healthy.length) % healthy.length := by
      rw [Nat.add_comm j (i % healthy.length), Nat.mod_add_mod]
    rw [hidx]
    exact List.getD_eq_getElem healthy 0
      (Nat.mod_lt _ (Nat.pos_of_ne_zero hne))

/-- Two full rounds repeat the same rotation twice. -/
theorem selections_double (healthy : List ℕ) (hne : healthy.length ≠ 0)
    (i : ℕ) :
    selections healthy i (2 * healthy.length) =
      selections healthy i healthy.length ++
        selections healthy i healthy.length := by
  rw [selections_eq_map healthy hne (2 * healthy.length) i,
    selections_eq_map healthy hne healthy.length i,
    two_mul, List.range_add, List.map_append]
  congr 1
  rw [List.map_map]
  congr 1
  funext j
  simp only [Function.comp]
  congr 1
  have hsh : i + (healthy.length + j) = (i + j) + healthy.length := by omega
  rw [hsh, Nat.add_mod_right]

/-- Claim C9.  Round-robin dispatch: with a fixed healthy set of size `k`,
any `2k` consecutive `execute` calls select each healthy connection
exactly twice, from any starting round-robin index. -/
theorem c9_round_robin_two_each (healthy : List ℕ) (hne : healthy ≠ [])
    (hnd : healthy.Nodup) (i c : ℕ) (hc : c ∈ healthy) :
    (selections healthy i (2 * healthy.length)).count c = 2 := by
  have hlen : healthy.length ≠ 0 := fun h => hne (List.length_eq_zero.mp h)
  rw [selections_double healthy hlen i, List.count_append]
  have hperm : (selections healthy i healthy.length).Perm healthy := by
    rw [selections_cycle healthy hlen i]
    exact List.rotate_perm healthy (i % healthy.length)
  rw [hperm.count_eq, List.count_eq_one_of_mem hnd hc]

/-- Witness for C9: healthy array `[10, 20, 30]`, starting index `1`,
connection `20` is selected exactly twice over six calls. -/
theorem c9_witness :
    (selections [10, 20, 30] 1 (2 * [10, 20, 30].length)).count 20 = 2 :=
  c9_round_robin_two_each [10, 20, 30] (by decide) (by decide) 1 20 (by decide)

/-- FIFO order: over any clear-free operation sequence, the dispatched
items are an initial segment of the pending items followed by the added
items, in order. -/
theorem qRun_items_extend (Δ : ℕ) :
    ∀ (ops : List (ℕ × QOp)) (s : QState), noClear ops →
      ∃ rest, s.queue ++ addedItems ops =
        (qRun Δ s ops).map Prod.snd ++ rest := by
  intro ops
  induction ops with
  | nil =>
    intro s _
    exact ⟨s.queue, by simp [qRun, addedItems]⟩
  | cons e rest ih =>
    obtain ⟨t, op⟩ := e
    intro s hnc
    have hnc' : noClear rest := fun e he => hnc e (List.mem_cons_of_mem _ he)
    cases op with
    | add x =>
      cases htimer : s.timer with
      | some f =>
        obtain ⟨r, hr⟩ := ih ⟨s.queue ++ [x], some f⟩ hnc'
        refine ⟨r, ?_⟩
        simp only [qRun, qStep, htimer, addedItems, Option.toList_none,
          List.nil_append]
        rw [List.append_cons]
        exact hr
      | none =>
        cases hq : s.queue with
        | nil =>
          obtain ⟨r, hr⟩ := ih ⟨[], some (t + Δ)⟩ hnc'
          refine ⟨r, ?_⟩
          simp only [qRun, qStep, htimer, hq, addedItems, List.nil_append,
            Option.toList_some, List.map_cons, List.cons_append]
          simpa using hr
        | cons q qs =>
          obtain ⟨r, hr⟩ := ih ⟨qs ++ [x], some (t + Δ)⟩ hnc'
          refine ⟨r, ?_⟩
          simp only [qRun, qStep, htimer, hq, addedItems, Option.toList_some,
            List.map_cons, List.cons_append]
          refine congrArg (q :: ·) ?_
          rw [List.append_cons]
          exact hr
    | tick =>
      cases hq : s.queue with
      | nil =>
        obtain ⟨r, hr⟩ := ih ⟨[], none⟩ hnc'
        refine ⟨r, ?_⟩
        simp only [qRun, qStep, hq, addedItems, Option.toList_none,
          List.nil_append]
        simpa using hr
      | cons q qs =>
        obtain ⟨r, hr⟩ := ih ⟨qs, some (t + Δ)⟩ hnc'
        refine ⟨r, ?_⟩
        simp only [qRun, qStep, hq, addedItems, Option.toList_some,
          List.map_cons, List.cons_append]
        exact congrArg (q :: ·) hr
    | clearQ =>
      exact absurd rfl (hnc (t, QOp.clearQ) (List.mem_cons_self _ _))

/-- Pacing: over any valid clear-free operation sequence, consecutive
dispatch times are at least `Δ` apart (also counting a dispatch `lastT`
that happened before the sequence, provided the state's timer respects
it). -/
theorem qRun_gaps (Δ : ℕ) :
    ∀ (ops : List (ℕ × QOp)) (s : QState) (now : ℕ) (lastT : Option ℕ),
      qValidFrom Δ s now ops → noClear ops →
      (∀ f, s.timer = some f → ∀ d, lastT = some d → d + Δ ≤ f) →
      (s.timer = none → ∀ d, lastT = some d → d + Δ ≤ now) →
      List.Chain' (fun u v => u + Δ ≤ v)
        (lastT.toList ++ (qRun Δ s ops).map Prod.fst) := by
  intro ops
  induction ops with
  | nil =>
    intro s now lastT _ _ _ _
    simp only [qRun, List.map_nil, List.append_nil]
    cases lastT <;> simp
  | cons e rest ih =>
    obtain ⟨t, op⟩ := e
    intro s now lastT hv hnc hsome hnone
    obtain ⟨hnow, hdue, htick, hv'⟩ := hv
    have hnc' : noClear rest := fun e he => hnc e (List.mem_cons_of_mem _ he)
    cases op with
    | add x =>
      cases htimer : s.timer with
      | some f =>
        have hstep : qStep Δ s t (QOp.add x) =
            (⟨s.queue ++ [x], some f⟩, none) := by
          simp [qStep, htimer]
        rw [hstep] at hv'
        simp only [qRun, hstep, Option.toList_none, List.nil_append]
        refine ih ⟨s.queue ++ [x], some f⟩ t lastT hv' hnc' ?_ ?_
        · intro f' hf' d hd
          cases hf'
          exact hsome f htimer d hd
        · intro hcon; cases hcon
      | none =>
        have hgap : ∀ d, lastT = some d → d + Δ ≤ t :=
          fun d hd => le_trans (hnone htimer d hd) hnow
        cases hq : s.queue with
        | nil =>
          have hstep : qStep Δ s t (QOp.add x) =
              (⟨[], some (t + Δ)⟩, some (t, x)) := by
            simp [qStep, htimer, hq]
          rw [hstep] at hv'
          have hrest := ih ⟨[], some (t + Δ)⟩ t (some t) hv' hnc'
            (by intro f' hf' d hd; cases hf'; cases hd; exact le_refl _)
            (by intro hcon; cases hcon)
          simp only [qRun, hstep, Option.toList_some, List.map_cons,
            List.cons_append]
          rw [List.chain'_append]
          refine ⟨?_, ?_, ?_⟩
          · cases lastT <;> simp
          · simpa using hrest
          · intro u hu v hv2
            cases lastT with
            | none => cases hu
            | some d =>
              simp only [Option.toList_some, List.getLast?_singleton,
                Option.mem_def, Option.some.injEq] at hu
              simp only [List.head?_cons, Option.mem_def,
                Option.some.injEq] at hv2
              subst hu; subst hv2
              exact hgap d rfl
        | cons q qs =>
          have hstep : qStep Δ s t (QOp.add x) =
              (⟨qs ++ [x], some (t + Δ)⟩, some (t, q)) := by
            simp [qStep, htimer, hq]
          rw [hstep] at hv'
          have hrest := ih ⟨qs ++ [x], some (t + Δ)⟩ t (some t) hv' hnc'
            (by intro f' hf' d hd; cases hf'; cases hd; exact le_refl _)
            (by intro hcon; cases hcon)
          simp only [qRun, hstep, Option.toList_some, List.map_cons,
            List.cons_append]
          rw [List.chain'_append]
          refine ⟨?_, ?_, ?_⟩
          · cases lastT <;> simp
          · simpa using hrest
          · intro u hu v hv2
            cases lastT with
            | none => cases hu
            | some d =>
              simp only [Option.toList_some, List.getLast?_singleton,
                Option.mem_def, Option.some.injEq] at hu
              simp only [List.head?_cons, Option.mem_def,
                Option.some.injEq] at hv2
              subst hu; subst hv2
              exact hgap d rfl
    | tick =>
      have htimer : s.timer = some t := htick
      have hgap : ∀ d, lastT = some d → d + Δ ≤ t :=
        fun d hd => hsome t htimer d hd
      cases hq : s.queue with
      | nil =>
        have hstep : qStep Δ s t QOp.tick = (⟨[], none⟩, none) := by
          simp [qStep, hq]
        rw [hstep] at hv'
        simp only [qRun, hstep, Option.toList_none, List.nil_append]
        refine ih ⟨[], none⟩ t lastT hv' hnc' ?_ ?_
        · intro f' hf'; cases hf'
        · intro _ d hd; exact hgap d hd
      | cons q qs =>
        have hstep : qStep Δ s t QOp.tick =
            (⟨qs, some (t + Δ)⟩, some (t, q)) := by
          simp [qStep, hq]
        rw [hstep] at hv'
        have hrest := ih ⟨qs, some (t + Δ)⟩ t (some t) hv' hnc'
          (by intro f' hf' d hd; cases hf'; cases hd; exact le_refl _)
          (by intro hcon; cases hcon)
        simp only [qRun, hstep, Option.toList_some, List.map_cons,
          List.cons_append]
        rw [List.chain'_append]
        refine ⟨?_, ?_, ?_⟩
        · cases lastT <;> simp
        · simpa using hrest
        · intro u hu v hv2
          cases lastT with
          | none => cases hu
          | some d =>
            simp only [Option.toList_some, List.getLast?_singleton,
              Option.mem_def, Option.some.injEq] at hu
            simp only [List.head?_cons, Option.mem_def,
              Option.some.injEq] at hv2
            subst hu; subst hv2
            exact hgap d rfl
    | clearQ =>
      exact absurd rfl (hnc (t, QOp.clearQ) (List.mem_cons_self _ _))

/-- Claim C2.  The throttled queue contract, over every valid clear-free
timed trace from the empty idle queue: (i) the consumer receives the
items in exactly their insertion order (the dispatched items are an
initial segment of the added items); (ii) any two successive consumer
invocations are at least `Δ` apart; (iii) an `add` on the empty idle
queue dispatches that item immediately, at the add's own time. -/
theorem c2_throttled_queue_contract (Δ : ℕ) (_hΔ : 0 < Δ)
    (ops : List (ℕ × QOp)) (hv : qValidFrom Δ qInit 0 ops)
    (hnc : noClear ops) :
    (∃ rest, addedItems ops = (qRun Δ qInit ops).map Prod.snd ++ rest) ∧
    List.Chain' (fun u v => u + Δ ≤ v)
      ((qRun Δ qInit ops).map Prod.fst) ∧
    (∀ t x, qStep Δ qInit t (QOp.add x) =
      (⟨[], some (t + Δ)⟩, some (t, x))) := by
  refine ⟨?_, ?_, fun t x => rfl⟩
  · have h := qRun_items_extend Δ ops qInit hnc
    simpa [qInit] using h
  · have h := qRun_gaps Δ ops qInit 0 none hv hnc
      (fun f hf => by cases hf) (fun _ d hd => by cases hd)
    simpa using h

/-- Witness for C2, on the trace: add 7 at time 0 (dispatched at 0),
add 8 at time 1, interval callbacks at times 2 (dispatching 8) and 4
(draining), with `Δ = 2`. -/
theorem c2_witness :
    (∃ rest,
      addedItems [(0, QOp.add 7), (1, QOp.add 8), (2, QOp.tick), (4, QOp.tick)] =
        (qRun 2 qInit
            [(0, QOp.add 7), (1, QOp.add 8), (2, QOp.tick), (4, QOp.tick)]).map
          Prod.snd ++ rest) ∧
    List.Chain' (fun u v => u + 2 ≤ v)
      ((qRun 2 qInit
          [(0, QOp.add 7), (1, QOp.add 8), (2, QOp.tick), (4, QOp.tick)]).map
        Prod.fst) ∧
    (∀ t x, qStep 2 qInit t (QOp.add x) =
      (⟨[], some (t + 2)⟩, some (t, x))) :=
  c2_throttled_queue_contract 2 (by decide)
    [(0, QOp.add 7), (1, QOp.add 8), (2, QOp.tick), (4, QOp.tick)]
    (by simp [qValidFrom, qStep, dueOk, tickOk, qInit])
    (by simp [noClear])

/-- Claim C10.  Whenever the pending list is non-empty the pacing timer is
active, and every queue operation (`add`, the `_process` tick, `clear`)
preserves this invariant. -/
theorem c10_nonempty_queue_has_timer (Δ : ℕ) (s : QState) (t : ℕ)
    (op : QOp) (_h : qInv s) : qInv (qStep Δ s t op).1 := by
  obtain ⟨q, tm⟩ := s
  cases op with
  | add x =>
    cases tm with
    | some f => simp [qStep, qInv]
    | none => cases q <;> simp [qStep, qInv]
  | tick => cases q <;> simp [qStep, qInv]
  | clearQ => simp [qStep, qInv]

/-- Witness for C10: one tick on a singleton queue with an armed timer. -/
theorem c10_witness : qInv (qStep 3 ⟨[5], some 4⟩ 4 QOp.tick).1 :=
  c10_nonempty_queue_has_timer 3 ⟨[5], some 4⟩ 4 QOp.tick
    (by intro _; exact Option.some_ne_none 4)
